import Mathlib

/-!
Verification development for the Nias Wiktionary page-layout bot
(niawikikamusbot.py).  The transformation core is embedded shallowly:
page text is a list of characters, each section extractor from the source
is translated into a total Lean function with the same name, and the body
of the page-manipulation method is translated as the assembler
treat_page.  Python regular-expression searches are modelled by explicit
scanning functions that reproduce the leftmost-match, greedy and lazy
semantics of the concrete patterns used in the source.  Literal braces in
wikitext markers are written with hexadecimal escapes.
-/

set_option maxRecDepth 100000

namespace NiaBot

/-- Whitespace as stripped by str.strip (the six ASCII whitespace characters). -/
def isPySpace (c : Char) : Bool :=
  c == ' ' || c == '\t' || c == '\n' || c == '\r' || c == '\x0b' || c == '\x0c'

/-- Page text as a list of characters. -/
def s2l (s : String) : List Char := s.data

/-- p is a prefix of l (models str.startswith and anchored regex literals). -/
def isPre : List Char → List Char → Bool
  | [], _ => true
  | _ :: _, [] => false
  | p :: ps, c :: cs => p == c && isPre ps cs

/-- pat occurs somewhere in l (models an unanchored re.search succeeding). -/
def containsSub : List Char → List Char → Bool
  | [], pat => pat.isEmpty
  | c :: rest, pat => isPre pat (c :: rest) || containsSub rest pat

/-- Suffix of l immediately after the first occurrence of pat, if any. -/
def afterFirst (pat : List Char) : List Char → Option (List Char)
  | [] => if pat.isEmpty then some [] else none
  | c :: rest =>
      if isPre pat (c :: rest) then some (List.drop pat.length (c :: rest))
      else afterFirst pat rest

/-- Number of (possibly overlapping) occurrences of pat in l. -/
def countOcc : List Char → List Char → Nat
  | [], _ => 0
  | c :: rest, pat => (if isPre pat (c :: rest) then 1 else 0) + countOcc rest pat

/-- Leading-whitespace strip (left half of str.strip). -/
def pyLStrip (l : List Char) : List Char := l.dropWhile isPySpace

/-- Trailing-whitespace strip (right half of str.strip). -/
def pyRStrip (l : List Char) : List Char := (l.reverse.dropWhile isPySpace).reverse

/-- str.strip. -/
def pyStrip (l : List Char) : List Char := pyRStrip (pyLStrip l)

/-- str.split on a newline: keeps empty pieces, one piece even for empty input. -/
def splitNl : List Char → List (List Char)
  | [] => [[]]
  | c :: rest =>
      if c == '\n' then [] :: splitNl rest
      else
        match splitNl rest with
        | [] => [[c]]
        | h :: t => (c :: h) :: t

/-- Worker for splitlines: accumulates the current line reversed. -/
def splitlinesGo : List Char → List Char → List (List Char)
  | [], acc => [acc.reverse]
  | '\r' :: '\n' :: rest, acc =>
      acc.reverse :: (if rest.isEmpty then [] else splitlinesGo rest [])
  | '\n' :: rest, acc =>
      acc.reverse :: (if rest.isEmpty then [] else splitlinesGo rest [])
  | '\r' :: rest, acc =>
      acc.reverse :: (if rest.isEmpty then [] else splitlinesGo rest [])
  | c :: rest, acc => splitlinesGo rest (c :: acc)

/-- str.splitlines, modelling the line breaks that occur in wikitext
(newline, carriage return, and the two-character sequence). -/
def splitlines (l : List Char) : List (List Char) :=
  if l.isEmpty then [] else splitlinesGo l []

/-- str.split on the bar character, as used for gallery image parameters. -/
def splitBar : List Char → List (List Char)
  | [] => [[]]
  | c :: rest =>
      if c == '|' then [] :: splitBar rest
      else
        match splitBar rest with
        | [] => [[c]]
        | h :: t => (c :: h) :: t

/-- Decimal digits of a number, modelling Python f-string number formatting. -/
def natChars (n : Nat) : List Char := Nat.toDigits 10 n

/-- Characters of the suffix up to the first newline or the end of text
(what the dot matches without DOTALL). -/
def lineOf (l : List Char) : List Char := l.takeWhile (fun c => !(c == '\n'))

/-- Content before the first newline of the suffix, when a newline exists
(the lazy dot-star followed by a literal newline, under DOTALL). -/
def beforeNl : List Char → Option (List Char)
  | [] => none
  | c :: rest => if c == '\n' then some [] else (beforeNl rest).map (c :: ·)

/-- Keep characters until the lookahead predicate holds on the remaining
suffix (the lazy dot-star with a lookahead, under DOTALL). -/
def takeUntil (look : List Char → Bool) : List Char → List Char
  | [] => []
  | c :: rest => if look (c :: rest) then [] else c :: takeUntil look rest

/-- The regex anchor for end of input: it matches at the very end and also
just before a final newline. -/
def dollarEnd (suf : List Char) : Bool := suf.isEmpty || suf == ['\n']

/-- Lookahead of the definisi pattern: a newline followed by an opening
double brace, or end of input. -/
def lookTpl (suf : List Char) : Bool :=
  isPre (s2l "\n\x7b\x7b") suf || dollarEnd suf

/-- Lookahead of the duma-duma pattern. -/
def lookDuma (suf : List Char) : Bool :=
  isPre (s2l "\n\x7b\x7b") suf || isPre (s2l "[[Berkas") suf ||
  isPre (s2l "[[File") suf || isPre (s2l "[[Kategori") suf || dollarEnd suf

/-- Lookahead shared by the eluaha-style section patterns. -/
def lookSec (suf : List Char) : Bool :=
  isPre (s2l "\n\x7b\x7b") suf || isPre (s2l "[[Kategori") suf || dollarEnd suf

/-- Lookahead of the umbu pattern. -/
def lookUmbu (suf : List Char) : Bool :=
  isPre (s2l "\n[[Kategori") suf || dollarEnd suf

/-- Lowercase ASCII letter, the regex class a-z. -/
def isLower (c : Char) : Bool := 'a' ≤ c && c ≤ 'z'

/-- The allow-list of valid language codes from the source. -/
def valid_language_codes : List (List Char) :=
  [s2l "ar", s2l "de", s2l "en", s2l "es", s2l "fr", s2l "hu", s2l "id",
   s2l "it", s2l "jp", s2l "la", s2l "ms", s2l "nia", s2l "pt", s2l "sa", s2l "zh"]

/-- Attempt to match two braces, two or three lowercase letters (greedy, so
three are tried first), and two closing braces at the head of the suffix. -/
def langMatchAt (l : List Char) : Option (List Char) :=
  if isPre (s2l "\x7b\x7b") l then
    match l.drop 2 with
    | a :: b :: c :: r2 =>
        if isLower a && isLower b && isLower c && isPre (s2l "\x7d\x7d") r2 then
          some [a, b, c]
        else if isLower a && isLower b && c == '\x7d' && isPre (s2l "\x7d") r2 then
          some [a, b]
        else none
    | _ => none
  else none

/-- find_language_code from the source: the first bracketed two-or-three
letter code is checked against the allow-list; an invalid first match
yields nothing (the search is not resumed). -/
def find_language_code : List Char → Option (List Char)
  | [] => none
  | c :: rest =>
      match langMatchAt (c :: rest) with
      | some code => if valid_language_codes.contains code then some code else none
      | none => find_language_code rest

/-- Longest prefix of the line ending in two closing braces (the greedy
dot-star followed by two braces). -/
def greedyToBB : List Char → Option (List Char)
  | [] => none
  | c :: rest =>
      match greedyToBB rest with
      | some g => some (c :: g)
      | none =>
          if c == '\x7d' && isPre (s2l "\x7d") rest then some (s2l "\x7d\x7d")
          else none

/-- Leftmost match of the IPA pattern: an opening IPA template with two
closing braces later on the same line. -/
def searchIPA : List Char → Option (List Char)
  | [] => none
  | c :: rest =>
      if isPre (s2l "\x7b\x7bIPA") (c :: rest) then
        match greedyToBB (lineOf (List.drop 5 (c :: rest))) with
        | some g => some (s2l "\x7b\x7bIPA" ++ g)
        | none => searchIPA rest
      else searchIPA rest

/-- The famoligö heading literal. -/
def famoligoH : List Char := s2l "\x7b\x7bfamoligö\x7d\x7d"

/-- find_famoligo_section from the source.  The part-of-speech and
famoligö searches computed there are never used; only the IPA search
decides the result, and both branches return a real pair, so the final
sentinel return in the source is unreachable. -/
def find_famoligo_section (text : List Char) : Option (List Char × List Char) :=
  match searchIPA text with
  | some g => some (famoligoH, s2l ":" ++ pyStrip g)
  | none => some (famoligoH, s2l ":\x7b\x7bIPA|ipa=|audio=\x7d\x7d")

/-- The definisi heading literal. -/
def definisiH : List Char := s2l "\x7b\x7bdefinisi\x7d\x7d"

/-- The duma-duma heading literal. -/
def dumaH : List Char := s2l "\x7b\x7bduma-duma\x7d\x7d"

/-- The numbered-list loop of find_definisi_duma_section: definition lines
are renumbered from one, example lines take the current definition number. -/
def dumaLoop (n : Nat) : List (List Char) → List (List Char) × List (List Char)
  | [] => ([], [])
  | line :: rest =>
      if isPre (s2l "#* ") line then
        let r := dumaLoop n rest
        (r.1, (s2l ":" ++ natChars n ++ s2l ". " ++ line.drop 3) :: r.2)
      else if isPre (s2l "#*") line then
        let r := dumaLoop n rest
        (r.1, (s2l ":" ++ natChars n ++ s2l ". " ++ line.drop 2) :: r.2)
      else if isPre (s2l "# ") line then
        let r := dumaLoop (n + 1) rest
        ((s2l ":" ++ natChars (n + 1) ++ s2l ". " ++ line.drop 2) :: r.1, r.2)
      else if isPre (s2l "#") line then
        let r := dumaLoop (n + 1) rest
        ((s2l ":" ++ natChars (n + 1) ++ s2l ". " ++ line.drop 1) :: r.1, r.2)
      else dumaLoop n rest

/-- find_definisi_duma_section from the source: when both markers match,
the two whole matches are stripped and joined; otherwise the raw
numbered-list lines are reformatted. -/
def find_definisi_duma_section (text : List Char) : List Char :=
  match afterFirst (definisiH ++ s2l "\n") text, afterFirst (dumaH ++ s2l "\n") text with
  | some sufD, some sufU =>
      pyStrip (definisiH ++ s2l "\n" ++ takeUntil lookTpl sufD) ++ s2l "\n\n" ++
      pyStrip (dumaH ++ s2l "\n" ++ takeUntil lookDuma sufU)
  | _, _ =>
      let r := dumaLoop 0 (splitNl text)
      definisiH ++ s2l "\n" ++ List.intercalate (s2l "\n") r.1 ++
      s2l "\n\n" ++ dumaH ++ s2l "\n" ++ List.intercalate (s2l "\n") r.2

/-- Text before the last occurrence of pat, if pat occurs (the greedy
dot-star followed by a literal, under DOTALL). -/
def lastSplit (pat : List Char) : List Char → Option (List Char)
  | [] => none
  | c :: rest =>
      match lastSplit pat rest with
      | some g => some (c :: g)
      | none => if isPre pat (c :: rest) then some [] else none

/-- Leftmost match of a literal followed lazily by anything up to a
newline; the whole match including the newline is returned. -/
def scanNlGroup (pat : List Char) : List Char → Option (List Char)
  | [] => none
  | c :: rest =>
      if isPre pat (c :: rest) then
        match beforeNl (List.drop pat.length (c :: rest)) with
        | some t => some (pat ++ t ++ s2l "\n")
        | none => scanNlGroup pat rest
      else scanNlGroup pat rest

/-- The gambara heading literal. -/
def gambaraH : List Char := s2l "\x7b\x7bgambara\x7d\x7d"

/-- find_gambara_section from the source: first the gallery block, then an
image link marker.  The gambara-heading search computed in the source is
never used. -/
def find_gambara_section (text : List Char) : Option (List Char × List Char) :=
  match (afterFirst (s2l "<gallery>\n") text).bind (lastSplit (s2l "</gallery>")) with
  | some g1 =>
      let image_list := pyStrip g1
      let mi := image_list.takeWhile (fun c => !(c == '\n'))
      some (gambaraH, s2l "[[" ++ List.intercalate (s2l "|jmpl|") (splitBar mi) ++ s2l "]]")
  | none =>
      match scanNlGroup (s2l "[[Berkas") text with
      | some g => some (gambaraH, pyStrip g)
      | none =>
          match scanNlGroup (s2l "[[File") text with
          | some g => some (gambaraH, pyStrip g)
          | none => none

/-- Shared shape of the simple section extractors: leftmost occurrence of
the heading followed by a newline, then the lazy content up to the
lookahead, stripped. -/
def sectionFind (heading : List Char) (look : List Char → Bool) (text : List Char) :
    Option (List Char) :=
  (afterFirst (heading ++ s2l "\n") text).map (fun suf => pyStrip (takeUntil look suf))

/-- Bullet conversion applied by several extractors. -/
def starToColon (l : List Char) : List Char := l.map (fun c => if c == '*' then ':' else c)

/-- Reverse bullet conversion applied by the baero extractor. -/
def colonToStar (l : List Char) : List Char := l.map (fun c => if c == ':' then '*' else c)

/-- The eluaha heading literal. -/
def eluahaH : List Char := s2l "\x7b\x7beluaha\x7d\x7d"

/-- The sinonim heading literal. -/
def sinonimH : List Char := s2l "\x7b\x7bsinonim\x7d\x7d"

/-- The antonim heading literal. -/
def antonimH : List Char := s2l "\x7b\x7bantonim\x7d\x7d"

/-- The etimologi heading literal. -/
def etimologiH : List Char := s2l "\x7b\x7betimologi\x7d\x7d"

/-- The nitöngöni heading literal. -/
def nitongoniH : List Char := s2l "\x7b\x7bnitöngöni\x7d\x7d"

/-- The fakhili heading literal. -/
def fakhiliH : List Char := s2l "\x7b\x7bfakhili\x7d\x7d"

/-- The daha heading literal. -/
def dahaH : List Char := s2l "\x7b\x7bdaha\x7d\x7d"

/-- The fakhai heading literal. -/
def fakhaiH : List Char := s2l "\x7b\x7bfakhai\x7d\x7d"

/-- The baero heading literal. -/
def baeroH : List Char := s2l "\x7b\x7bbaero\x7d\x7d"

/-- The umbu heading literal. -/
def umbuH : List Char := s2l "\x7b\x7bumbu\x7d\x7d"

/-- find_eluaha_section from the source. -/
def find_eluaha_section (text : List Char) : Option (List Char × List Char) :=
  (sectionFind eluahaH lookSec text).map (fun c => (eluahaH, c))

/-- find_sinonim_section from the source (converts stars to colons). -/
def find_sinonim_section (text : List Char) : Option (List Char × List Char) :=
  (sectionFind sinonimH lookSec text).map (fun c => (sinonimH, starToColon c))

/-- find_antonim_section from the source (converts stars to colons). -/
def find_antonim_section (text : List Char) : Option (List Char × List Char) :=
  (sectionFind antonimH lookSec text).map (fun c => (antonimH, starToColon c))

/-- find_etimologi_section from the source (converts stars to colons). -/
def find_etimologi_section (text : List Char) : Option (List Char × List Char) :=
  (sectionFind etimologiH lookSec text).map (fun c => (etimologiH, starToColon c))

/-- find_nitongoni_section from the source (converts stars to colons). -/
def find_nitongoni_section (text : List Char) : Option (List Char × List Char) :=
  (sectionFind nitongoniH lookSec text).map (fun c => (nitongoniH, starToColon c))

/-- find_fakhili_section from the source (converts stars to colons). -/
def find_fakhili_section (text : List Char) : Option (List Char × List Char) :=
  (sectionFind fakhiliH lookSec text).map (fun c => (fakhiliH, starToColon c))

/-- find_daha_section from the source (converts stars to colons). -/
def find_daha_section (text : List Char) : Option (List Char × List Char) :=
  (sectionFind dahaH lookSec text).map (fun c => (dahaH, starToColon c))

/-- find_fakhai_section from the source (converts stars to colons). -/
def find_fakhai_section (text : List Char) : Option (List Char × List Char) :=
  (sectionFind fakhaiH lookSec text).map (fun c => (fakhaiH, starToColon c))

/-- find_baero_section from the source (converts colons to stars). -/
def find_baero_section (text : List Char) : Option (List Char × List Char) :=
  (sectionFind baeroH lookSec text).map (fun c => (baeroH, colonToStar c))

/-- find_umbu_section from the source. -/
def find_umbu_section (text : List Char) : Option (List Char × List Char) :=
  (sectionFind umbuH lookUmbu text).map (fun c => (umbuH, c))

/-- Lines of the text beginning with the category-link marker. -/
def katLines (text : List Char) : List (List Char) :=
  (splitlines text).filter (fun l => isPre (s2l "[[Kategori") l)

/-- The category lines joined by newlines and stripped. -/
def katJoined (text : List Char) : List Char :=
  pyStrip (List.intercalate (s2l "\n") (katLines text))

/-- The no-categorisation marker text. -/
def noMufL : List Char := s2l "No mufareso"

/-- The categorisation-needed marker text. -/
def awenaL : List Char := s2l "Awena mufareso"

/-- str.replace of every occurrence of the no-categorisation marker by the
categorisation-needed marker. -/
def replaceNoMuf : List Char → List Char
  | [] => []
  | c :: rest =>
      if isPre noMufL (c :: rest) then awenaL ++ replaceNoMuf (rest.drop 10)
      else c :: replaceNoMuf rest
termination_by l => l.length
decreasing_by
  · simp only [List.length_drop, List.length_cons]
    omega
  · simp only [List.length_cons]
    omega

/-- find_kategori from the source. -/
def find_kategori (text : List Char) : List Char :=
  let ex := katJoined text
  if containsSub ex noMufL then replaceNoMuf ex
  else ex ++ s2l "\n[[Kategori:Awena mufareso]]"

/-- Python truthiness of the heading-and-content pair: a missing pair and
an empty heading or content are all falsy. -/
def secChunk (o : Option (List Char × List Char)) (placeholder : List Char) : List Char :=
  match o with
  | some (h, c) =>
      if h.isEmpty || c.isEmpty then placeholder
      else h ++ s2l "\n" ++ c ++ s2l "\n\n"
  | none => placeholder

/-- The language-code chunk of the assembled page. -/
def langChunk (text : List Char) : List Char :=
  match find_language_code text with
  | some code => if code.isEmpty then [] else s2l "\x7b\x7b" ++ code ++ s2l "\x7d\x7d\n\n"
  | none => []

/-- Default famoligö section used when the extracted pair is falsy. -/
def famPl : List Char := s2l "\x7b\x7bfamoligö\x7d\x7d\n\x7b\x7bIPA|ipa=|audio=\x7d\x7d\n\n"

/-- Default definisi and duma-duma section. -/
def defPl : List Char := s2l "\x7b\x7bdefinisi\x7d\x7d\n\n\x7b\x7bduma-duma\x7d\x7d\n\n"

/-- Default gambara section. -/
def gamPl : List Char := s2l "\x7b\x7bgambara\x7d\x7d\n\n\n"

/-- Default eluaha section. -/
def eluPl : List Char :=
  s2l "\x7b\x7beluaha\x7d\x7d\n* \x7b\x7b-id-\x7d\x7d:\n* \x7b\x7b-en-\x7d\x7d:\n* \x7b\x7b-de-\x7d\x7d:\n\n"

/-- Default sinonim section. -/
def sinPl : List Char := s2l "\x7b\x7bsinonim\x7d\x7d\n:Lö hadöi\n\n"

/-- Default antonim section. -/
def antPl : List Char := s2l "\x7b\x7bantonim\x7d\x7d\n:Lö hadöi\n\n"

/-- Default etimologi section. -/
def etiPl : List Char := s2l "\x7b\x7betimologi\x7d\x7d\n:Lö hadöi\n\n"

/-- Default nitöngöni section. -/
def nitPl : List Char := s2l "\x7b\x7bnitöngöni\x7d\x7d\n:Lö hadöi\n\n"

/-- Default fakhili section. -/
def fkhPl : List Char := s2l "\x7b\x7bfakhili\x7d\x7d\n:Lö hadöi\n\n"

/-- Default daha section. -/
def dahPl : List Char := s2l "\x7b\x7bdaha\x7d\x7d\n:Lö hadöi\n\n"

/-- Default fakhai section. -/
def fkaPl : List Char := s2l "\x7b\x7bfakhai\x7d\x7d\n:Lö hadöi\n\n"

/-- Default baero section. -/
def baePl : List Char := s2l "\x7b\x7bbaero\x7d\x7d\n*Lö hadöi\n\n"

/-- Default umbu section. -/
def umbPl : List Char := s2l "\x7b\x7bumbu\x7d\x7d\n*Lö hadöi\n\n"

/-- The definisi and duma-duma chunk of the assembled page. -/
def defChunk (text : List Char) : List Char :=
  let d := find_definisi_duma_section text
  if d.isEmpty then defPl else d ++ s2l "\n\n"

/-- The category chunk of the assembled page. -/
def katChunk (text : List Char) : List Char :=
  let k := find_kategori text
  if k.isEmpty then [] else k

/-- The page text assembled by treat_page before the final strip. -/
def assembled (text : List Char) : List Char :=
  langChunk text ++
  secChunk (find_famoligo_section text) famPl ++
  defChunk text ++
  secChunk (find_gambara_section text) gamPl ++
  secChunk (find_eluaha_section text) eluPl ++
  secChunk (find_sinonim_section text) sinPl ++
  secChunk (find_antonim_section text) antPl ++
  secChunk (find_etimologi_section text) etiPl ++
  secChunk (find_nitongoni_section text) nitPl ++
  secChunk (find_fakhili_section text) fkhPl ++
  secChunk (find_daha_section text) dahPl ++
  secChunk (find_fakhai_section text) fkaPl ++
  secChunk (find_baero_section text) baePl ++
  secChunk (find_umbu_section text) umbPl ++
  katChunk text

/-- The text produced by treat_page for a page whose current text is the
input: the assembled sections in the fixed order, stripped. -/
def treat_page (text : List Char) : List Char := pyStrip (assembled text)

/-- The assembled text without the final category chunk. -/
def bodyChunks (text : List Char) : List Char :=
  langChunk text ++
  secChunk (find_famoligo_section text) famPl ++
  defChunk text ++
  secChunk (find_gambara_section text) gamPl ++
  secChunk (find_eluaha_section text) eluPl ++
  secChunk (find_sinonim_section text) sinPl ++
  secChunk (find_antonim_section text) antPl ++
  secChunk (find_etimologi_section text) etiPl ++
  secChunk (find_nitongoni_section text) nitPl ++
  secChunk (find_fakhili_section text) fkhPl ++
  secChunk (find_daha_section text) dahPl ++
  secChunk (find_fakhai_section text) fkaPl ++
  secChunk (find_baero_section text) baePl ++
  secChunk (find_umbu_section text) umbPl

/-- Some character of l is not whitespace. -/
def hasNonSpace (l : List Char) : Bool := l.any (fun c => !isPySpace c)

/-- No character of l is a newline. -/
def noNl (l : List Char) : Bool := l.all (fun c => !(c == '\n'))

/-- The patterns occur in l in the given order, possibly interleaved with
other text. -/
def containsInOrder (l : List Char) : List (List Char) → Prop
  | [] => True
  | p :: ps => ∃ a b, l = a ++ p ++ b ∧ containsInOrder b ps

/-- The fourteen fixed-order section headings of the output layout. -/
def headingsList : List (List Char) :=
  [famoligoH, definisiH, dumaH, gambaraH, eluahaH, sinonimH, antonimH,
   etimologiH, nitongoniH, fakhiliH, dahaH, fakhaiH, baeroH, umbuH]

/-- The categorisation-needed category line preceded by a newline, as
appended by find_kategori. -/
def nlKatL : List Char := s2l "\n[[Kategori:Awena mufareso]]"

/-- The full output produced for an input with no recognised markers:
every section heading with its default content, in the fixed order,
followed by the appended categorisation-needed category line. -/
def defaultOutL : List Char :=
  s2l "\x7b\x7bfamoligö\x7d\x7d\n:\x7b\x7bIPA|ipa=|audio=\x7d\x7d\n\n\x7b\x7bdefinisi\x7d\x7d\n\n\n\x7b\x7bduma-duma\x7d\x7d\n\n\n\x7b\x7bgambara\x7d\x7d\n\n\n\x7b\x7beluaha\x7d\x7d\n* \x7b\x7b-id-\x7d\x7d:\n* \x7b\x7b-en-\x7d\x7d:\n* \x7b\x7b-de-\x7d\x7d:\n\n\x7b\x7bsinonim\x7d\x7d\n:Lö hadöi\n\n\x7b\x7bantonim\x7d\x7d\n:Lö hadöi\n\n\x7b\x7betimologi\x7d\x7d\n:Lö hadöi\n\n\x7b\x7bnitöngöni\x7d\x7d\n:Lö hadöi\n\n\x7b\x7bfakhili\x7d\x7d\n:Lö hadöi\n\n\x7b\x7bdaha\x7d\x7d\n:Lö hadöi\n\n\x7b\x7bfakhai\x7d\x7d\n:Lö hadöi\n\n\x7b\x7bbaero\x7d\x7d\n*Lö hadöi\n\n\x7b\x7bumbu\x7d\x7d\n*Lö hadöi\n\n\n[[Kategori:Awena mufareso]]"

/-! Basic lemmas about prefixes, substring search and stripping. -/

theorem isPre_length_le : ∀ p l : List Char, isPre p l = true → p.length ≤ l.length := by
  intro p
  induction p with
  | nil => intro l _; simp
  | cons a ps ih =>
    intro l h
    cases l with
    | nil => simp [isPre] at h
    | cons c cs =>
      simp only [isPre, Bool.and_eq_true] at h
      have := ih cs h.2
      simp only [List.length_cons]
      omega

theorem isPre_trans : ∀ a b c : List Char, isPre a b = true → isPre b c = true →
    isPre a c = true := by
  intro a
  induction a with
  | nil => intro b c _ _; simp [isPre]
  | cons x xs ih =>
    intro b c hab hbc
    cases b with
    | nil => simp [isPre] at hab
    | cons y ys =>
      cases c with
      | nil => simp [isPre] at hbc
      | cons z zs =>
        simp only [isPre, Bool.and_eq_true, beq_iff_eq] at hab hbc ⊢
        exact ⟨hab.1.trans hbc.1, ih _ _ hab.2 hbc.2⟩

theorem contains_mono : ∀ l p q : List Char, isPre q p = true →
    containsSub l p = true → containsSub l q = true := by
  intro l
  induction l with
  | nil =>
    intro p q hqp hp
    simp only [containsSub] at hp ⊢
    cases p with
    | nil =>
      cases q with
      | nil => rfl
      | cons _ _ => simp [isPre] at hqp
    | cons _ _ => simp at hp
  | cons c rest ih =>
    intro p q hqp hp
    simp only [containsSub, Bool.or_eq_true] at hp ⊢
    cases hp with
    | inl h => exact Or.inl (isPre_trans _ _ _ hqp h)
    | inr h => exact Or.inr (ih _ _ hqp h)

theorem afterFirst_none_iff : ∀ pat l : List Char,
    afterFirst pat l = none ↔ containsSub l pat = false := by
  intro pat l
  induction l with
  | nil =>
    simp only [afterFirst, containsSub]
    cases h : pat.isEmpty <;> simp [h]
  | cons c rest ih =>
    simp only [afterFirst, containsSub]
    cases h : isPre pat (c :: rest) <;> simp [h, ih]

theorem dropWhile_cons_true {p : Char → Bool} {c : Char} {l : List Char} (h : p c = true) :
    List.dropWhile p (c :: l) = List.dropWhile p l := by
  simp [List.dropWhile, h]

theorem dropWhile_cons_false {p : Char → Bool} {c : Char} {l : List Char} (h : p c = false) :
    List.dropWhile p (c :: l) = c :: l := by
  simp [List.dropWhile, h]

theorem dropWhile_append_or (p : Char → Bool) (a b : List Char) :
    List.dropWhile p (a ++ b) =
      if (List.dropWhile p a).isEmpty then List.dropWhile p b
      else List.dropWhile p a ++ b := by
  induction a with
  | nil => simp
  | cons c a' ih =>
    cases h : p c with
    | true => simp only [List.cons_append, dropWhile_cons_true h, ih]
    | false => simp [dropWhile_cons_false h, List.cons_append]

theorem dropWhile_head_false (p : Char → Bool) : ∀ l (c : Char) t,
    List.dropWhile p l = c :: t → p c = false := by
  intro l
  induction l with
  | nil => intro c t h; simp [List.dropWhile] at h
  | cons x l' ih =>
    intro c t h
    cases hx : p x with
    | true => rw [dropWhile_cons_true hx] at h; exact ih _ _ h
    | false =>
      rw [dropWhile_cons_false hx] at h
      injection h with h1 _
      rw [← h1]; exact hx

theorem dropWhile_idem (p : Char → Bool) (l : List Char) :
    List.dropWhile p (List.dropWhile p l) = List.dropWhile p l := by
  induction l with
  | nil => rfl
  | cons c l' ih =>
    cases hc : p c with
    | true => rw [dropWhile_cons_true hc]; exact ih
    | false => rw [dropWhile_cons_false hc, dropWhile_cons_false hc]

theorem all_of_dropWhile_nil (p : Char → Bool) : ∀ l, List.dropWhile p l = [] →
    l.all p = true := by
  intro l
  induction l with
  | nil => intro _; rfl
  | cons c l' ih =>
    intro h
    cases hc : p c with
    | true =>
      rw [dropWhile_cons_true hc] at h
      simp [List.all_cons, hc, ih h]
    | false => rw [dropWhile_cons_false hc] at h; exact absurd h (by simp)

theorem hasNonSpace_eq_false_iff (l : List Char) :
    hasNonSpace l = false ↔ l.all isPySpace = true := by
  induction l with
  | nil => simp [hasNonSpace]
  | cons c l' ih =>
    simp only [hasNonSpace, List.any_cons, List.all_cons, Bool.or_eq_false_iff,
      Bool.and_eq_true, Bool.not_eq_false'] at ih ⊢
    constructor
    · intro h; exact ⟨h.1, ih.mp h.2⟩
    · intro h; exact ⟨h.1, ih.mpr h.2⟩

theorem dropWhile_ws_nil (x : List Char) (h : hasNonSpace x = false) :
    List.dropWhile isPySpace x = [] := by
  induction x with
  | nil => rfl
  | cons c x' ih =>
    simp only [hasNonSpace, List.any_cons, Bool.or_eq_false_iff,
      Bool.not_eq_false'] at h
    rw [dropWhile_cons_true h.1]
    exact ih ((hasNonSpace_eq_false_iff x').mpr
      ((hasNonSpace_eq_false_iff x').mp ((by simp [hasNonSpace, h.2]))))

theorem hasNonSpace_append (a b : List Char) :
    hasNonSpace (a ++ b) = (hasNonSpace a || hasNonSpace b) := by
  simp [hasNonSpace, List.any_append]

theorem hasNonSpace_reverse (l : List Char) : hasNonSpace l.reverse = hasNonSpace l := by
  induction l with
  | nil => rfl
  | cons c l' ih =>
    rw [List.reverse_cons, hasNonSpace_append, ih]
    show (hasNonSpace l' || hasNonSpace [c]) = hasNonSpace (c :: l')
    simp only [hasNonSpace, List.any_cons, List.any_nil, Bool.or_false]
    exact Bool.or_comm _ _

theorem pyRStrip_append_nsp (a b : List Char) (h : hasNonSpace b = true) :
    pyRStrip (a ++ b) = a ++ pyRStrip b := by
  unfold pyRStrip
  rw [List.reverse_append, dropWhile_append_or]
  have hne : (List.dropWhile isPySpace b.reverse).isEmpty = false := by
    cases he : List.dropWhile isPySpace b.reverse with
    | nil =>
      have := all_of_dropWhile_nil isPySpace b.reverse he
      have h2 : hasNonSpace b.reverse = false := (hasNonSpace_eq_false_iff _).mpr this
      rw [hasNonSpace_reverse] at h2
      rw [h2] at h; exact absurd h (by simp)
    | cons _ _ => rfl
  rw [hne]
  simp

theorem pyRStrip_append_sp (a b : List Char) (h : hasNonSpace b = false) :
    pyRStrip (a ++ b) = pyRStrip a := by
  unfold pyRStrip
  rw [List.reverse_append, dropWhile_append_or]
  have hx : hasNonSpace b.reverse = false := by rw [hasNonSpace_reverse]; exact h
  rw [dropWhile_ws_nil _ hx]
  simp

theorem pyLStrip_append_led (pat rest : List Char) (h1 : pyLStrip pat = pat)
    (h3 : pat.isEmpty = false) : pyLStrip (pat ++ rest) = pat ++ rest := by
  unfold pyLStrip at h1 ⊢
  rw [dropWhile_append_or, h1, h3]
  simp

theorem pyStrip_append_led (pat rest : List Char) (h1 : pyLStrip pat = pat)
    (h2 : pyRStrip pat = pat) (h3 : pat.isEmpty = false) :
    ∃ t, pyStrip (pat ++ rest) = pat ++ t := by
  unfold pyStrip
  rw [pyLStrip_append_led pat rest h1 h3]
  cases hb : hasNonSpace rest with
  | true => exact ⟨pyRStrip rest, pyRStrip_append_nsp _ _ hb⟩
  | false =>
    refine ⟨[], ?_⟩
    rw [pyRStrip_append_sp _ _ hb, h2]
    simp

theorem LS_RS_LS (l : List Char) :
    pyLStrip (pyRStrip (pyLStrip l)) = pyRStrip (pyLStrip l) := by
  cases hZ : pyLStrip l with
  | nil => simp [pyRStrip, pyLStrip]
  | cons c Z =>
    have hc : isPySpace c = false := dropWhile_head_false _ _ _ _ hZ
    unfold pyRStrip
    rw [show (c :: Z).reverse = Z.reverse ++ [c] by simp]
    rw [dropWhile_append_or]
    cases he : (List.dropWhile isPySpace Z.reverse).isEmpty with
    | true =>
      rw [if_pos rfl]
      rw [dropWhile_cons_false hc]
      simp only [List.reverse_cons, List.reverse_nil, List.nil_append]
      unfold pyLStrip
      rw [dropWhile_cons_false hc]
    | false =>
      rw [if_neg (by simp)]
      rw [List.reverse_append]
      simp only [List.reverse_cons, List.reverse_nil, List.nil_append,
        List.singleton_append]
      unfold pyLStrip
      rw [dropWhile_cons_false hc]

theorem pyRStrip_idem (l : List Char) : pyRStrip (pyRStrip l) = pyRStrip l := by
  unfold pyRStrip
  rw [List.reverse_reverse, dropWhile_idem]

theorem pyStrip_idem (l : List Char) : pyStrip (pyStrip l) = pyStrip l := by
  unfold pyStrip
  rw [LS_RS_LS, pyRStrip_idem]

/-! Lemmas about the category-marker replacement. -/

theorem replaceNoMuf_nil : replaceNoMuf [] = [] := by
  rw [replaceNoMuf]

theorem replaceNoMuf_cons (c : Char) (rest : List Char) :
    replaceNoMuf (c :: rest) =
      if isPre noMufL (c :: rest) then awenaL ++ replaceNoMuf (rest.drop 10)
      else c :: replaceNoMuf rest := by
  rw [replaceNoMuf]

theorem contains_awena_append (X : List Char) :
    containsSub (awenaL ++ X) noMufL = containsSub X noMufL := rfl

theorem isPre_replaceNoMuf : ∀ q : List Char, q.all (fun c => !(c == 'A')) = true →
    ∀ l, isPre q (replaceNoMuf l) = true → isPre q l = true := by
  intro q
  induction q with
  | nil => intro _ l _; rfl
  | cons a q' ih =>
    intro hq l h
    simp only [List.all_cons, Bool.and_eq_true, Bool.not_eq_true'] at hq
    cases l with
    | nil => rw [replaceNoMuf_nil] at h; exact absurd h (by simp [isPre])
    | cons c rest =>
      rw [replaceNoMuf_cons] at h
      by_cases hm : isPre noMufL (c :: rest) = true
      · rw [if_pos hm] at h
        rw [show awenaL ++ replaceNoMuf (rest.drop 10) =
          'A' :: (s2l "wena mufareso" ++ replaceNoMuf (rest.drop 10)) from rfl] at h
        simp only [isPre, Bool.and_eq_true] at h
        rw [hq.1] at h
        exact absurd h.1 (by simp)
      · rw [if_neg hm] at h
        simp only [isPre, Bool.and_eq_true] at h ⊢
        exact ⟨h.1, ih hq.2 rest h.2⟩

theorem replace_no_noMuf_len : ∀ (n : Nat) (l : List Char), l.length ≤ n →
    containsSub (replaceNoMuf l) noMufL = false := by
  intro n
  induction n with
  | zero =>
    intro l hl
    have : l = [] := List.eq_nil_of_length_eq_zero (Nat.le_zero.mp hl)
    subst this
    rw [replaceNoMuf_nil]
    rfl
  | succ n ih =>
    intro l hl
    cases l with
    | nil => rw [replaceNoMuf_nil]; rfl
    | cons c rest =>
      rw [replaceNoMuf_cons]
      by_cases hm : isPre noMufL (c :: rest) = true
      · rw [if_pos hm, contains_awena_append]
        apply ih
        have hdl : (rest.drop 10).length = rest.length - 10 := List.length_drop 10 rest
        simp only [List.length_cons] at hl
        omega
      · rw [if_neg hm]
        show (isPre noMufL (c :: replaceNoMuf rest) ||
          containsSub (replaceNoMuf rest) noMufL) = false
        have h2 : containsSub (replaceNoMuf rest) noMufL = false := by
          apply ih
          simp only [List.length_cons] at hl
          omega
        rw [h2, Bool.or_false]
        cases hp : isPre noMufL (c :: replaceNoMuf rest) with
        | false => rfl
        | true =>
          exfalso
          apply hm
          rw [show noMufL = 'N' :: s2l "o mufareso" from rfl] at hp ⊢
          simp only [isPre, Bool.and_eq_true] at hp ⊢
          exact ⟨hp.1, isPre_replaceNoMuf (s2l "o mufareso") (by decide) rest hp.2⟩

theorem replace_no_noMuf (l : List Char) :
    containsSub (replaceNoMuf l) noMufL = false :=
  replace_no_noMuf_len l.length l (Nat.le_refl _)

theorem replaceNoMuf_ne_nil (c : Char) (rest : List Char) :
    replaceNoMuf (c :: rest) ≠ [] := by
  rw [replaceNoMuf_cons]
  by_cases hm : isPre noMufL (c :: rest) = true
  · rw [if_pos hm]
    intro h
    rw [List.append_eq_nil] at h
    exact absurd h.1 (by decide)
  · rw [if_neg hm]
    exact List.cons_ne_nil _ _

theorem hasNonSpace_replaceNoMuf_len : ∀ (n : Nat) (l : List Char), l.length ≤ n →
    containsSub l noMufL = true → hasNonSpace (replaceNoMuf l) = true := by
  intro n
  induction n with
  | zero =>
    intro l hl hc
    have : l = [] := List.eq_nil_of_length_eq_zero (Nat.le_zero.mp hl)
    subst this
    exact absurd hc (by decide)
  | succ n ih =>
    intro l hl hc
    cases l with
    | nil => exact absurd hc (by decide)
    | cons c rest =>
      rw [replaceNoMuf_cons]
      by_cases hm : isPre noMufL (c :: rest) = true
      · rw [if_pos hm, hasNonSpace_append]
        rw [show hasNonSpace awenaL = true from by decide]
        rfl
      · rw [if_neg hm]
        have hr : containsSub rest noMufL = true := by
          have := hc
          show containsSub rest noMufL = true
          rw [show containsSub (c :: rest) noMufL =
            (isPre noMufL (c :: rest) || containsSub rest noMufL) from rfl] at this
          cases ho : isPre noMufL (c :: rest) with
          | true => exact absurd ho hm
          | false => rw [ho, Bool.false_or] at this; exact this
        have h2 := ih rest (by simp only [List.length_cons] at hl; omega) hr
        show (!isPySpace c || hasNonSpace (replaceNoMuf rest)) = true
        rw [h2, Bool.or_true]

theorem hasNonSpace_replaceNoMuf (l : List Char) (hc : containsSub l noMufL = true) :
    hasNonSpace (replaceNoMuf l) = true :=
  hasNonSpace_replaceNoMuf_len l.length l (Nat.le_refl _) hc

theorem isPre_append_nl : ∀ p : List Char, noNl p = true → ∀ y B : List Char,
    isPre p (y ++ '\n' :: B) = isPre p y := by
  intro p
  induction p with
  | nil => intro _ y B; rfl
  | cons a p' ih =>
    intro hp y B
    simp only [noNl, List.all_cons, Bool.and_eq_true, Bool.not_eq_true'] at hp
    cases y with
    | nil =>
      simp only [List.nil_append]
      show (a == '\n' && isPre p' B) = isPre (a :: p') []
      rw [hp.1]
      simp [isPre]
    | cons c y' =>
      simp only [List.cons_append]
      show (a == c && isPre p' (y' ++ '\n' :: B)) = (a == c && isPre p' y')
      rw [ih hp.2 y' B]

theorem contains_append_nlKat : ∀ X : List Char,
    containsSub (X ++ nlKatL) noMufL = containsSub X noMufL := by
  intro X
  induction X with
  | nil => decide
  | cons c X' ih =>
    show (isPre noMufL (c :: (X' ++ nlKatL)) || containsSub (X' ++ nlKatL) noMufL)
       = (isPre noMufL (c :: X') || containsSub X' noMufL)
    rw [ih]
    rw [show c :: (X' ++ nlKatL) = (c :: X') ++ nlKatL from rfl]
    rw [show nlKatL = '\n' :: s2l "[[Kategori:Awena mufareso]]" from rfl]
    rw [isPre_append_nl noMufL (by decide) (c :: X')]

/-! Invariants of the category finder. -/

theorem find_kategori_no_noMuf (text : List Char) :
    containsSub (find_kategori text) noMufL = false := by
  unfold find_kategori
  cases hx : containsSub (katJoined text) noMufL with
  | true =>
    simp only [hx, if_true]
    exact replace_no_noMuf _
  | false =>
    simp only [hx]
    rw [if_neg Bool.false_ne_true]
    rw [show s2l "\n[[Kategori:Awena mufareso]]" = nlKatL from rfl]
    rw [contains_append_nlKat]
    exact hx

theorem find_kategori_ne_nil (text : List Char) : find_kategori text ≠ [] := by
  unfold find_kategori
  cases hx : containsSub (katJoined text) noMufL with
  | true =>
    simp only [hx, if_true]
    cases hk : katJoined text with
    | nil => rw [hk] at hx; exact absurd hx (by decide)
    | cons c rest => exact replaceNoMuf_ne_nil c rest
  | false =>
    simp only [hx]
    rw [if_neg Bool.false_ne_true]
    intro h
    rw [List.append_eq_nil] at h
    exact absurd h.2 (by decide)

theorem hasNonSpace_find_kategori (text : List Char) :
    hasNonSpace (find_kategori text) = true := by
  unfold find_kategori
  cases hx : containsSub (katJoined text) noMufL with
  | true =>
    simp only [hx, if_true]
    exact hasNonSpace_replaceNoMuf _ hx
  | false =>
    simp only [hx]
    rw [if_neg Bool.false_ne_true]
    rw [hasNonSpace_append]
    rw [show hasNonSpace (s2l "\n[[Kategori:Awena mufareso]]") = true from by decide]
    rw [Bool.or_true]

/-! Shape of the assembled chunks: each chunk starts with its heading. -/

theorem secChunk_some_led (H c pl plt : List Char) (hpl : pl = H ++ plt) :
    ∃ t, secChunk (some (H, c)) pl = H ++ t := by
  show ∃ t, (if (H.isEmpty || c.isEmpty) = true then pl
    else H ++ s2l "\n" ++ c ++ s2l "\n\n") = H ++ t
  by_cases he : (H.isEmpty || c.isEmpty) = true
  · rw [if_pos he]; exact ⟨plt, hpl⟩
  · rw [if_neg he]
    exact ⟨s2l "\n" ++ c ++ s2l "\n\n", by simp [List.append_assoc]⟩

theorem secChunk_led (oc : Option (List Char)) (f : List Char → List Char)
    (H pl plt : List Char) (hpl : pl = H ++ plt) :
    ∃ t, secChunk (oc.map (fun c => (H, f c))) pl = H ++ t := by
  cases oc with
  | none => exact ⟨plt, hpl⟩
  | some c => exact secChunk_some_led H (f c) pl plt hpl

theorem famChunk_led (text : List Char) :
    ∃ t, secChunk (find_famoligo_section text) famPl = famoligoH ++ t := by
  unfold find_famoligo_section
  cases searchIPA text with
  | some g =>
    exact secChunk_some_led famoligoH _ famPl
      (s2l "\n\x7b\x7bIPA|ipa=|audio=\x7d\x7d\n\n") rfl
  | none =>
    exact secChunk_some_led famoligoH _ famPl
      (s2l "\n\x7b\x7bIPA|ipa=|audio=\x7d\x7d\n\n") rfl

theorem gamChunk_led (text : List Char) :
    ∃ t, secChunk (find_gambara_section text) gamPl = gambaraH ++ t := by
  unfold find_gambara_section
  cases (afterFirst (s2l "<gallery>\n") text).bind (lastSplit (s2l "</gallery>")) with
  | some g1 => exact secChunk_some_led gambaraH _ gamPl (s2l "\n\n\n") rfl
  | none =>
    cases scanNlGroup (s2l "[[Berkas") text with
    | some g => exact secChunk_some_led gambaraH _ gamPl (s2l "\n\n\n") rfl
    | none =>
      cases scanNlGroup (s2l "[[File") text with
      | some g => exact secChunk_some_led gambaraH _ gamPl (s2l "\n\n\n") rfl
      | none => exact ⟨s2l "\n\n\n", rfl⟩

theorem eluChunk_led (text : List Char) :
    ∃ t, secChunk (find_eluaha_section text) eluPl = eluahaH ++ t := by
  unfold find_eluaha_section
  exact secChunk_led _ _ _ _
    (s2l "\n* \x7b\x7b-id-\x7d\x7d:\n* \x7b\x7b-en-\x7d\x7d:\n* \x7b\x7b-de-\x7d\x7d:\n\n") rfl

theorem sinChunk_led (text : List Char) :
    ∃ t, secChunk (find_sinonim_section text) sinPl = sinonimH ++ t := by
  unfold find_sinonim_section
  exact secChunk_led _ _ _ _ (s2l "\n:Lö hadöi\n\n") rfl

theorem antChunk_led (text : List Char) :
    ∃ t, secChunk (find_antonim_section text) antPl = antonimH ++ t := by
  unfold find_antonim_section
  exact secChunk_led _ _ _ _ (s2l "\n:Lö hadöi\n\n") rfl

theorem etiChunk_led (text : List Char) :
    ∃ t, secChunk (find_etimologi_section text) etiPl = etimologiH ++ t := by
  unfold find_etimologi_section
  exact secChunk_led _ _ _ _ (s2l "\n:Lö hadöi\n\n") rfl

theorem nitChunk_led (text : List Char) :
    ∃ t, secChunk (find_nitongoni_section text) nitPl = nitongoniH ++ t := by
  unfold find_nitongoni_section
  exact secChunk_led _ _ _ _ (s2l "\n:Lö hadöi\n\n") rfl

theorem fkhChunk_led (text : List Char) :
    ∃ t, secChunk (find_fakhili_section text) fkhPl = fakhiliH ++ t := by
  unfold find_fakhili_section
  exact secChunk_led _ _ _ _ (s2l "\n:Lö hadöi\n\n") rfl

theorem dahChunk_led (text : List Char) :
    ∃ t, secChunk (find_daha_section text) dahPl = dahaH ++ t := by
  unfold find_daha_section
  exact secChunk_led _ _ _ _ (s2l "\n:Lö hadöi\n\n") rfl

theorem fkaChunk_led (text : List Char) :
    ∃ t, secChunk (find_fakhai_section text) fkaPl = fakhaiH ++ t := by
  unfold find_fakhai_section
  exact secChunk_led _ _ _ _ (s2l "\n:Lö hadöi\n\n") rfl

theorem baeChunk_led (text : List Char) :
    ∃ t, secChunk (find_baero_section text) baePl = baeroH ++ t := by
  unfold find_baero_section
  exact secChunk_led _ _ _ _ (s2l "\n*Lö hadöi\n\n") rfl

theorem umbChunk_led (text : List Char) :
    ∃ t, secChunk (find_umbu_section text) umbPl = umbuH ++ t := by
  unfold find_umbu_section
  exact secChunk_led _ _ _ _ (s2l "\n*Lö hadöi\n\n") rfl

theorem find_dd_led (text : List Char) :
    ∃ a b, find_definisi_duma_section text = definisiH ++ a ++ dumaH ++ b := by
  unfold find_definisi_duma_section
  cases afterFirst (definisiH ++ s2l "\n") text with
  | some sufD =>
    cases afterFirst (dumaH ++ s2l "\n") text with
    | some sufU =>
      show ∃ a b, pyStrip (definisiH ++ s2l "\n" ++ takeUntil lookTpl sufD) ++ s2l "\n\n" ++
        pyStrip (dumaH ++ s2l "\n" ++ takeUntil lookDuma sufU) = definisiH ++ a ++ dumaH ++ b
      obtain ⟨t1, h1⟩ := pyStrip_append_led definisiH
        (s2l "\n" ++ takeUntil lookTpl sufD) (by decide) (by decide) (by decide)
      obtain ⟨t2, h2⟩ := pyStrip_append_led dumaH
        (s2l "\n" ++ takeUntil lookDuma sufU) (by decide) (by decide) (by decide)
      refine ⟨t1 ++ s2l "\n\n", t2, ?_⟩
      rw [List.append_assoc definisiH (s2l "\n") (takeUntil lookTpl sufD)]
      rw [List.append_assoc dumaH (s2l "\n") (takeUntil lookDuma sufU)]
      rw [h1, h2]
      simp [List.append_assoc]
    | none =>
      show ∃ a b, definisiH ++ s2l "\n" ++
        List.intercalate (s2l "\n") (dumaLoop 0 (splitNl text)).1 ++ s2l "\n\n" ++ dumaH ++
        s2l "\n" ++ List.intercalate (s2l "\n") (dumaLoop 0 (splitNl text)).2 =
        definisiH ++ a ++ dumaH ++ b
      refine ⟨s2l "\n" ++ List.intercalate (s2l "\n") (dumaLoop 0 (splitNl text)).1 ++
        s2l "\n\n", s2l "\n" ++ List.intercalate (s2l "\n") (dumaLoop 0 (splitNl text)).2, ?_⟩
      simp [List.append_assoc]
  | none =>
    show ∃ a b, definisiH ++ s2l "\n" ++
      List.intercalate (s2l "\n") (dumaLoop 0 (splitNl text)).1 ++ s2l "\n\n" ++ dumaH ++
      s2l "\n" ++ List.intercalate (s2l "\n") (dumaLoop 0 (splitNl text)).2 =
      definisiH ++ a ++ dumaH ++ b
    refine ⟨s2l "\n" ++ List.intercalate (s2l "\n") (dumaLoop 0 (splitNl text)).1 ++
      s2l "\n\n", s2l "\n" ++ List.intercalate (s2l "\n") (dumaLoop 0 (splitNl text)).2, ?_⟩
    simp [List.append_assoc]

theorem find_dd_ne_nil (text : List Char) : find_definisi_duma_section text ≠ [] := by
  obtain ⟨a, b, h⟩ := find_dd_led text
  rw [h]
  intro hx
  rw [List.append_eq_nil] at hx
  obtain ⟨hx1, -⟩ := hx
  rw [List.append_eq_nil] at hx1
  obtain ⟨hx2, -⟩ := hx1
  rw [List.append_eq_nil] at hx2
  exact absurd hx2.1 (by decide)

theorem defChunk_led (text : List Char) :
    ∃ a b, defChunk text = definisiH ++ a ++ dumaH ++ b := by
  unfold defChunk
  cases hk : (find_definisi_duma_section text).isEmpty with
  | true =>
    exact absurd (List.isEmpty_iff.mp hk) (find_dd_ne_nil text)
  | false =>
    simp only [hk]
    rw [if_neg Bool.false_ne_true]
    obtain ⟨a, b, h⟩ := find_dd_led text
    refine ⟨a, b ++ s2l "\n\n", ?_⟩
    rw [h]
    simp [List.append_assoc]

/-! The headings occur in the output in the fixed order. -/

theorem cio_prepend (x l : List Char) (ps : List (List Char))
    (h : containsInOrder l ps) : containsInOrder (x ++ l) ps := by
  cases ps with
  | nil => trivial
  | cons p ps' =>
    obtain ⟨a, b, hl, hb⟩ := h
    exact ⟨x ++ a, b, by rw [hl]; simp [List.append_assoc], hb⟩

theorem cio_here (H t : List Char) (ps : List (List Char))
    (h : containsInOrder t ps) : containsInOrder (H ++ t) (H :: ps) :=
  ⟨[], t, by simp, h⟩

theorem cio_head_ne_nil (l p : List Char) (ps : List (List Char))
    (h : containsInOrder l (p :: ps)) (hp : p ≠ []) : l ≠ [] := by
  obtain ⟨a, b, hl, -⟩ := h
  rw [hl]
  intro hx
  rw [List.append_eq_nil] at hx
  obtain ⟨hx1, -⟩ := hx
  rw [List.append_eq_nil] at hx1
  exact hp hx1.2

theorem headings_in_order (text X : List Char) :
    containsInOrder (bodyChunks text ++ X) headingsList := by
  obtain ⟨t1, h1⟩ := famChunk_led text
  obtain ⟨da, db, h2⟩ := defChunk_led text
  obtain ⟨t3, h3⟩ := gamChunk_led text
  obtain ⟨t4, h4⟩ := eluChunk_led text
  obtain ⟨t5, h5⟩ := sinChunk_led text
  obtain ⟨t6, h6⟩ := antChunk_led text
  obtain ⟨t7, h7⟩ := etiChunk_led text
  obtain ⟨t8, h8⟩ := nitChunk_led text
  obtain ⟨t9, h9⟩ := fkhChunk_led text
  obtain ⟨t10, h10⟩ := dahChunk_led text
  obtain ⟨t11, h11⟩ := fkaChunk_led text
  obtain ⟨t12, h12⟩ := baeChunk_led text
  obtain ⟨t13, h13⟩ := umbChunk_led text
  unfold bodyChunks
  rw [h1, h2, h3, h4, h5, h6, h7, h8, h9, h10, h11, h12, h13]
  rw [show headingsList = [famoligoH, definisiH, dumaH, gambaraH, eluahaH, sinonimH,
    antonimH, etimologiH, nitongoniH, fakhiliH, dahaH, fakhaiH, baeroH, umbuH] from rfl]
  simp only [List.append_assoc]
  apply cio_prepend
  apply cio_here
  apply cio_prepend
  apply cio_here
  apply cio_prepend
  apply cio_here
  apply cio_prepend
  apply cio_here
  apply cio_prepend
  apply cio_here
  apply cio_prepend
  apply cio_here
  apply cio_prepend
  apply cio_here
  apply cio_prepend
  apply cio_here
  apply cio_prepend
  apply cio_here
  apply cio_prepend
  apply cio_here
  apply cio_prepend
  apply cio_here
  apply cio_prepend
  apply cio_here
  apply cio_prepend
  apply cio_here
  apply cio_prepend
  apply cio_here
  trivial

/-! Decomposition of the final output. -/

theorem bodyChunks_cons (text : List Char) :
    ∃ r, bodyChunks text = '\x7b' :: r := by
  obtain ⟨t1, h1⟩ := famChunk_led text
  unfold bodyChunks langChunk
  cases find_language_code text with
  | none =>
    rw [h1]
    simp only [List.nil_append, List.append_assoc]
    rw [show famoligoH = '\x7b' :: s2l "\x7bfamoligö\x7d\x7d" from rfl]
    rw [List.cons_append]
    exact ⟨_, rfl⟩
  | some code =>
    cases he : code.isEmpty with
    | true =>
      simp only [he, if_true]
      rw [h1]
      simp only [List.nil_append, List.append_assoc]
      rw [show famoligoH = '\x7b' :: s2l "\x7bfamoligö\x7d\x7d" from rfl]
      rw [List.cons_append]
      exact ⟨_, rfl⟩
    | false =>
      simp only [he]
      rw [if_neg Bool.false_ne_true]
      simp only [List.append_assoc]
      rw [show s2l "\x7b\x7b" = '\x7b' :: s2l "\x7b" from rfl]
      rw [List.cons_append]
      exact ⟨_, rfl⟩

theorem katChunk_eq (text : List Char) : katChunk text = find_kategori text := by
  unfold katChunk
  cases hk : (find_kategori text).isEmpty with
  | true => exact absurd (List.isEmpty_iff.mp hk) (find_kategori_ne_nil text)
  | false =>
    simp only [hk]
    rw [if_neg Bool.false_ne_true]

theorem assembled_eq (text : List Char) :
    assembled text = bodyChunks text ++ find_kategori text := by
  unfold assembled bodyChunks
  rw [katChunk_eq]

theorem treat_page_split (text : List Char) :
    treat_page text = bodyChunks text ++ pyRStrip (find_kategori text) := by
  unfold treat_page
  rw [assembled_eq]
  unfold pyStrip
  obtain ⟨r, hr⟩ := bodyChunks_cons text
  have hls : pyLStrip (bodyChunks text ++ find_kategori text) =
      bodyChunks text ++ find_kategori text := by
    rw [hr]
    rw [show ('\x7b' :: r) ++ find_kategori text = '\x7b' :: (r ++ find_kategori text)
      from rfl]
    unfold pyLStrip
    exact dropWhile_cons_false (by decide)
  rw [hls]
  exact pyRStrip_append_nsp _ _ (hasNonSpace_find_kategori text)

/-! Behaviour of the extractors on text that contains no recognised markers. -/

theorem find_language_code_none (l : List Char)
    (h : containsSub l (s2l "\x7b\x7b") = false) : find_language_code l = none := by
  induction l with
  | nil => rfl
  | cons c rest ih =>
    have h2 : (isPre (s2l "\x7b\x7b") (c :: rest) ||
        containsSub rest (s2l "\x7b\x7b")) = false := h
    rw [Bool.or_eq_false_iff] at h2
    have hm : langMatchAt (c :: rest) = none := by
      unfold langMatchAt
      rw [h2.1]
      rw [if_neg Bool.false_ne_true]
    show (match langMatchAt (c :: rest) with
      | some code => if valid_language_codes.contains code then some code else none
      | none => find_language_code rest) = none
    rw [hm]
    exact ih h2.2

theorem searchIPA_none (l : List Char)
    (h : containsSub l (s2l "\x7b\x7bIPA") = false) : searchIPA l = none := by
  induction l with
  | nil => rfl
  | cons c rest ih =>
    have h2 : (isPre (s2l "\x7b\x7bIPA") (c :: rest) ||
        containsSub rest (s2l "\x7b\x7bIPA")) = false := h
    rw [Bool.or_eq_false_iff] at h2
    show (if isPre (s2l "\x7b\x7bIPA") (c :: rest) then
      (match greedyToBB (lineOf (List.drop 5 (c :: rest))) with
        | some g => some (s2l "\x7b\x7bIPA" ++ g)
        | none => searchIPA rest) else searchIPA rest) = none
    rw [h2.1]
    rw [if_neg Bool.false_ne_true]
    exact ih h2.2

theorem scanNlGroup_none (pat l : List Char)
    (h : containsSub l pat = false) : scanNlGroup pat l = none := by
  induction l with
  | nil => rfl
  | cons c rest ih =>
    have h2 : (isPre pat (c :: rest) || containsSub rest pat) = false := h
    rw [Bool.or_eq_false_iff] at h2
    show (if isPre pat (c :: rest) then
      (match beforeNl (List.drop pat.length (c :: rest)) with
        | some t => some (pat ++ t ++ s2l "\n")
        | none => scanNlGroup pat rest) else scanNlGroup pat rest) = none
    rw [h2.1]
    rw [if_neg Bool.false_ne_true]
    exact ih h2.2

theorem dumaLoop_no_hash (n : Nat) (ls : List (List Char))
    (h : ls.all (fun l => !(isPre (s2l "#") l)) = true) : dumaLoop n ls = ([], []) := by
  induction ls generalizing n with
  | nil => rfl
  | cons line rest ih =>
    simp only [List.all_cons, Bool.and_eq_true, Bool.not_eq_true'] at h
    have g : ∀ q : List Char, isPre (s2l "#") q = true → isPre q line = false := by
      intro q hq
      cases hx : isPre q line with
      | false => rfl
      | true => exact absurd (isPre_trans (s2l "#") q line hq hx) (by simp [h.1])
    rw [dumaLoop]
    rw [g (s2l "#* ") (by decide)]
    rw [if_neg Bool.false_ne_true]
    rw [g (s2l "#*") (by decide)]
    rw [if_neg Bool.false_ne_true]
    rw [g (s2l "# ") (by decide)]
    rw [if_neg Bool.false_ne_true]
    rw [g (s2l "#") (by decide)]
    rw [if_neg Bool.false_ne_true]
    exact ih n h.2

theorem filter_nil_of_all_not (p : List Char → Bool) (ls : List (List Char))
    (h : ls.all (fun l => !(p l)) = true) : ls.filter p = [] := by
  induction ls with
  | nil => rfl
  | cons x ls2 ih =>
    simp only [List.all_cons, Bool.and_eq_true, Bool.not_eq_true'] at h
    rw [List.filter_cons]
    rw [h.1]
    rw [if_neg Bool.false_ne_true]
    exact ih h.2

theorem treat_markerless (text : List Char)
    (h1 : containsSub text (s2l "\x7b\x7b") = false)
    (h2 : containsSub text (s2l "[[") = false)
    (h3 : containsSub text (s2l "<gallery>\n") = false)
    (h4 : (splitNl text).all (fun l => !(isPre (s2l "#") l)) = true)
    (h5 : (splitlines text).all (fun l => !(isPre (s2l "[[Kategori") l)) = true) :
    treat_page text = defaultOutL := by
  have hcm : ∀ pat : List Char, isPre (s2l "\x7b\x7b") pat = true →
      containsSub text pat = false := by
    intro pat hp
    cases hx : containsSub text pat with
    | false => rfl
    | true => exact absurd (contains_mono text pat (s2l "\x7b\x7b") hp hx) (by simp [h1])
  have hcb : ∀ pat : List Char, isPre (s2l "[[") pat = true →
      containsSub text pat = false := by
    intro pat hp
    cases hx : containsSub text pat with
    | false => rfl
    | true => exact absurd (contains_mono text pat (s2l "[[") hp hx) (by simp [h2])
  have hlang : find_language_code text = none := find_language_code_none text h1
  have hipa : searchIPA text = none := searchIPA_none text (hcm _ (by decide))
  have hfam : find_famoligo_section text =
      some (famoligoH, s2l ":\x7b\x7bIPA|ipa=|audio=\x7d\x7d") := by
    unfold find_famoligo_section
    rw [hipa]
  have hafD : afterFirst (definisiH ++ s2l "\n") text = none :=
    (afterFirst_none_iff _ _).mpr (hcm _ (by decide))
  have hloop : dumaLoop 0 (splitNl text) = ([], []) := dumaLoop_no_hash 0 _ h4
  have hdd : find_definisi_duma_section text =
      s2l "\x7b\x7bdefinisi\x7d\x7d\n\n\n\x7b\x7bduma-duma\x7d\x7d\n" := by
    unfold find_definisi_duma_section
    rw [hafD]
    show definisiH ++ s2l "\n" ++
      List.intercalate (s2l "\n") (dumaLoop 0 (splitNl text)).1 ++ s2l "\n\n" ++ dumaH ++
      s2l "\n" ++ List.intercalate (s2l "\n") (dumaLoop 0 (splitNl text)).2 = _
    rw [hloop]
    decide
  have hgal : afterFirst (s2l "<gallery>\n") text = none :=
    (afterFirst_none_iff _ _).mpr h3
  have hber : scanNlGroup (s2l "[[Berkas") text = none :=
    scanNlGroup_none _ _ (hcb _ (by decide))
  have hfib : scanNlGroup (s2l "[[File") text = none :=
    scanNlGroup_none _ _ (hcb _ (by decide))
  have hgam : find_gambara_section text = none := by
    unfold find_gambara_section
    rw [hgal, hber, hfib]
    rfl
  have haf : ∀ H : List Char, isPre (s2l "\x7b\x7b") (H ++ s2l "\n") = true →
      afterFirst (H ++ s2l "\n") text = none :=
    fun H hp => (afterFirst_none_iff _ _).mpr (hcm _ hp)
  have helu : find_eluaha_section text = none := by
    unfold find_eluaha_section sectionFind
    rw [haf eluahaH (by decide)]
    rfl
  have hsin : find_sinonim_section text = none := by
    unfold find_sinonim_section sectionFind
    rw [haf sinonimH (by decide)]
    rfl
  have hant : find_antonim_section text = none := by
    unfold find_antonim_section sectionFind
    rw [haf antonimH (by decide)]
    rfl
  have heti : find_etimologi_section text = none := by
    unfold find_etimologi_section sectionFind
    rw [haf etimologiH (by decide)]
    rfl
  have hnit : find_nitongoni_section text = none := by
    unfold find_nitongoni_section sectionFind
    rw [haf nitongoniH (by decide)]
    rfl
  have hfkh : find_fakhili_section text = none := by
    unfold find_fakhili_section sectionFind
    rw [haf fakhiliH (by decide)]
    rfl
  have hdah : find_daha_section text = none := by
    unfold find_daha_section sectionFind
    rw [haf dahaH (by decide)]
    rfl
  have hfka : find_fakhai_section text = none := by
    unfold find_fakhai_section sectionFind
    rw [haf fakhaiH (by decide)]
    rfl
  have hbae : find_baero_section text = none := by
    unfold find_baero_section sectionFind
    rw [haf baeroH (by decide)]
    rfl
  have humb : find_umbu_section text = none := by
    unfold find_umbu_section sectionFind
    rw [haf umbuH (by decide)]
    rfl
  have hkfil : (splitlines text).filter (fun l => isPre (s2l "[[Kategori") l) = [] :=
    filter_nil_of_all_not _ _ h5
  have hkat : find_kategori text = nlKatL := by
    unfold find_kategori katJoined katLines
    rw [hkfil]
    decide
  unfold treat_page assembled langChunk defChunk katChunk
  rw [hlang, hfam, hdd, hgam, helu, hsin, hant, heti, hnit, hfkh, hdah, hfka, hbae, humb,
    hkat]
  decide

/-! Lemmas for the image-link extraction on texts with a leading prefix. -/

theorem isPre_append_left (p : List Char) : ∀ a b : List Char, p.length ≤ a.length →
    isPre p (a ++ b) = isPre p a := by
  induction p with
  | nil => intro a b _; rfl
  | cons x ps ih =>
    intro a b h
    cases a with
    | nil => simp at h
    | cons y a2 =>
      show (x == y && isPre ps (a2 ++ b)) = (x == y && isPre ps a2)
      rw [ih a2 b (by simp only [List.length_cons] at h; omega)]

theorem isPre_append_split (p : List Char) : ∀ a b : List Char,
    isPre p (a ++ b) = true → a.length < p.length →
    isPre (p.drop a.length) b = true := by
  intro a
  induction a generalizing p with
  | nil => intro b h _; simpa using h
  | cons y a2 ih =>
    intro b h hlen
    cases p with
    | nil => simp at hlen
    | cons x ps =>
      simp only [List.cons_append, isPre, Bool.and_eq_true] at h
      have := ih ps b h.2 (by simp only [List.length_cons] at hlen; omega)
      simpa using this

theorem isPre_of_prefixes : ∀ p q l : List Char, isPre p l = true →
    isPre q l = true → p.length ≤ q.length → isPre p q = true := by
  intro p
  induction p with
  | nil => intro q l _ _ _; rfl
  | cons x ps ih =>
    intro q l hp hq hle
    cases q with
    | nil => simp at hle
    | cons y qs =>
      cases l with
      | nil => simp [isPre] at hp
      | cons c ls =>
        simp only [isPre, Bool.and_eq_true, beq_iff_eq] at hp hq ⊢
        exact ⟨hp.1.trans hq.1.symm,
          ih qs ls hp.2 hq.2 (by simp only [List.length_cons] at hle; omega)⟩

theorem scanNlGroup_append_gen (pat : List Char)
    (hov : ∀ s, s < pat.length → 0 < s → isPre (pat.drop s) pat = false)
    (z : List Char) (hz : isPre pat z = true) :
    ∀ pre : List Char, containsSub pre pat = false →
    scanNlGroup pat (pre ++ z) = scanNlGroup pat z := by
  intro pre
  induction pre with
  | nil => intro _; rw [List.nil_append]
  | cons c pre2 ih =>
    intro h
    have h2 : (isPre pat (c :: pre2) || containsSub pre2 pat) = false := h
    rw [Bool.or_eq_false_iff] at h2
    have hguard : isPre pat (c :: pre2 ++ z) = false := by
      cases hg : isPre pat (c :: pre2 ++ z) with
      | false => rfl
      | true =>
        exfalso
        by_cases hl : pat.length ≤ (c :: pre2).length
        · rw [isPre_append_left _ (c :: pre2) z hl] at hg
          exact absurd hg (by simp [h2.1])
        · push_neg at hl
          have hs := isPre_append_split pat (c :: pre2) z hg hl
          have hlen : (pat.drop (c :: pre2).length).length ≤ pat.length := by
            rw [List.length_drop]
            omega
          have hp2 := isPre_of_prefixes (pat.drop (c :: pre2).length) pat z hs hz hlen
          have hno := hov (c :: pre2).length hl (by simp)
          exact absurd (hp2.symm.trans hno) (by decide)
    show (if isPre pat (c :: (pre2 ++ z)) then
      (match beforeNl (List.drop pat.length (c :: (pre2 ++ z))) with
        | some t => some (pat ++ t ++ s2l "\n")
        | none => scanNlGroup pat (pre2 ++ z))
      else scanNlGroup pat (pre2 ++ z)) = scanNlGroup pat z
    rw [show (c :: (pre2 ++ z)) = (c :: pre2 ++ z) from rfl]
    rw [hguard]
    rw [if_neg Bool.false_ne_true]
    exact ih h2.2

theorem scanNlGroup_hit (pat : List Char) (c : Char) (rest : List Char)
    (hp : isPre pat (c :: rest) = true) :
    scanNlGroup pat (c :: rest) =
      match beforeNl (List.drop pat.length (c :: rest)) with
      | some t => some (pat ++ t ++ s2l "\n")
      | none => scanNlGroup pat rest := by
  show (if isPre pat (c :: rest) then
    (match beforeNl (List.drop pat.length (c :: rest)) with
      | some t => some (pat ++ t ++ s2l "\n")
      | none => scanNlGroup pat rest)
    else scanNlGroup pat rest) = _
  rw [hp]
  rw [if_pos rfl]

theorem beforeNl_append (a b : List Char) (ha : noNl a = true) :
    beforeNl (a ++ '\n' :: b) = some a := by
  induction a with
  | nil => rfl
  | cons c a2 ih =>
    simp only [noNl, List.all_cons, Bool.and_eq_true, Bool.not_eq_true'] at ha
    show (if c == '\n' then some []
      else (beforeNl (a2 ++ '\n' :: b)).map (c :: ·)) = some (c :: a2)
    rw [ha.1]
    rw [if_neg Bool.false_ne_true]
    rw [ih ha.2]
    rfl

theorem noNl_drop (l : List Char) (k : Nat) (h : noNl l = true) :
    noNl (l.drop k) = true := by
  simp only [noNl, List.all_eq_true] at h ⊢
  intro c hc
  exact h c (List.mem_of_mem_drop hc)

theorem isPre_decomp (p : List Char) : ∀ l : List Char, isPre p l = true →
    l = p ++ l.drop p.length := by
  induction p with
  | nil => intro l _; simp
  | cons x ps ih =>
    intro l h
    cases l with
    | nil => simp [isPre] at h
    | cons c ls =>
      simp only [isPre, Bool.and_eq_true, beq_iff_eq] at h
      rw [show (x :: ps) ++ (c :: ls).drop (x :: ps).length =
        x :: (ps ++ ls.drop ps.length) from by simp]
      rw [show x = c from h.1]
      exact congrArg (c :: ·) (ih ls h.2)

theorem pyStrip_append_nlchar (l : List Char) : pyStrip (l ++ s2l "\n") = pyStrip l := by
  unfold pyStrip pyLStrip
  rw [dropWhile_append_or]
  cases he : (List.dropWhile isPySpace l).isEmpty with
  | true =>
    rw [if_pos rfl]
    rw [show List.dropWhile isPySpace (s2l "\n") = [] from by decide]
    rw [List.isEmpty_iff.mp he]
  | false =>
    rw [if_neg Bool.false_ne_true]
    exact pyRStrip_append_sp _ _ (by decide)

theorem isPre_self_append : ∀ p r : List Char, isPre p (p ++ r) = true := by
  intro p
  induction p with
  | nil => intro r; rfl
  | cons x ps ih =>
    intro r
    show (x == x && isPre ps (ps ++ r)) = true
    rw [ih r]
    simp

theorem scanNlGroup_line (pat : List Char) (hne : pat ≠ [])
    (hov : ∀ s, s < pat.length → 0 < s → isPre (pat.drop s) pat = false)
    (pre line post : List Char)
    (hline : isPre pat line = true)
    (hnl : noNl line = true)
    (hpre : containsSub pre pat = false) :
    scanNlGroup pat (pre ++ line ++ s2l "\n" ++ post) = some (line ++ s2l "\n") := by
  have hassoc : pre ++ line ++ s2l "\n" ++ post = pre ++ (line ++ '\n' :: post) := by
    rw [show s2l "\n" = ['\n'] from rfl]
    simp [List.append_assoc, List.singleton_append]
  have hz : isPre pat (line ++ '\n' :: post) = true := by
    rw [isPre_append_left _ line ('\n' :: post) (isPre_length_le _ _ hline)]
    exact hline
  obtain ⟨l2, hline2, hnl2⟩ : ∃ l2, line = pat ++ l2 ∧ noNl l2 = true :=
    ⟨line.drop pat.length, isPre_decomp _ line hline, noNl_drop line _ hnl⟩
  rw [hassoc]
  rw [scanNlGroup_append_gen pat hov (line ++ '\n' :: post) hz pre hpre]
  rw [hline2]
  cases pat with
  | nil => exact absurd rfl hne
  | cons c t =>
    rw [show (c :: t) ++ l2 ++ '\n' :: post = c :: (t ++ (l2 ++ '\n' :: post)) from by
      simp [List.append_assoc]]
    rw [scanNlGroup_hit (c :: t) c (t ++ (l2 ++ '\n' :: post)) (by
      rw [show (c :: (t ++ (l2 ++ '\n' :: post))) =
        (c :: t) ++ (l2 ++ '\n' :: post) from rfl]
      exact isPre_self_append _ _)]
    rw [show List.drop (c :: t).length (c :: (t ++ (l2 ++ '\n' :: post))) =
      l2 ++ '\n' :: post from by
        rw [List.length_cons, List.drop_succ_cons, List.drop_left]]
    rw [beforeNl_append l2 post hnl2]

/-! Lemmas for the numbered-list fallback of the definition extractor. -/

theorem dumaLoop_skip (n : Nat) (pls rest : List (List Char))
    (h : pls.all (fun l => !(isPre (s2l "#") l)) = true) :
    dumaLoop n (pls ++ rest) = dumaLoop n rest := by
  induction pls generalizing n with
  | nil => rfl
  | cons line pls2 ih =>
    simp only [List.all_cons, Bool.and_eq_true, Bool.not_eq_true'] at h
    have g : ∀ q : List Char, isPre (s2l "#") q = true → isPre q line = false := by
      intro q hq
      cases hx : isPre q line with
      | false => rfl
      | true => exact absurd (isPre_trans (s2l "#") q line hq hx) (by simp [h.1])
    rw [List.cons_append, dumaLoop]
    rw [g (s2l "#* ") (by decide)]
    rw [if_neg Bool.false_ne_true]
    rw [g (s2l "#*") (by decide)]
    rw [if_neg Bool.false_ne_true]
    rw [g (s2l "# ") (by decide)]
    rw [if_neg Bool.false_ne_true]
    rw [g (s2l "#") (by decide)]
    rw [if_neg Bool.false_ne_true]
    exact ih n h.2

theorem dumaLoop_sharp_line (n : Nat) (foo : List Char) (rest : List (List Char)) :
    dumaLoop n ((s2l "# " ++ foo) :: rest) =
      ((s2l ":" ++ natChars (n + 1) ++ s2l ". " ++ foo) :: (dumaLoop (n + 1) rest).1,
       (dumaLoop (n + 1) rest).2) := by
  rw [dumaLoop]
  rw [show isPre (s2l "#* ") (s2l "# " ++ foo) = false from rfl]
  rw [if_neg Bool.false_ne_true]
  rw [show isPre (s2l "#*") (s2l "# " ++ foo) = false from rfl]
  rw [if_neg Bool.false_ne_true]
  rw [show isPre (s2l "# ") (s2l "# " ++ foo) = true from rfl]
  rw [if_pos rfl]
  rfl

theorem dumaLoop_star_line (n : Nat) (bar : List Char) (rest : List (List Char)) :
    dumaLoop n ((s2l "#* " ++ bar) :: rest) =
      ((dumaLoop n rest).1,
       (s2l ":" ++ natChars n ++ s2l ". " ++ bar) :: (dumaLoop n rest).2) := by
  rw [dumaLoop]
  rw [show isPre (s2l "#* ") (s2l "#* " ++ bar) = true from rfl]
  rw [if_pos rfl]
  rfl

theorem intercalate_single (sep x : List Char) : List.intercalate sep [x] = x := by
  simp [List.intercalate]

theorem contains_awena_replace_len : ∀ (n : Nat) (l : List Char), l.length ≤ n →
    containsSub l noMufL = true → containsSub (replaceNoMuf l) awenaL = true := by
  intro n
  induction n with
  | zero =>
    intro l hl hc
    have : l = [] := List.eq_nil_of_length_eq_zero (Nat.le_zero.mp hl)
    subst this
    exact absurd hc (by decide)
  | succ n ih =>
    intro l hl hc
    cases l with
    | nil => exact absurd hc (by decide)
    | cons c rest =>
      rw [replaceNoMuf_cons]
      by_cases hm : isPre noMufL (c :: rest) = true
      · rw [if_pos hm]
        cases hrep : replaceNoMuf (rest.drop 10) with
        | nil => decide
        | cons d ds =>
          show (isPre awenaL (awenaL ++ d :: ds) || _) = true
          rw [isPre_self_append]
          rfl
      · rw [if_neg hm]
        have hr : containsSub rest noMufL = true := by
          rw [show containsSub (c :: rest) noMufL =
            (isPre noMufL (c :: rest) || containsSub rest noMufL) from rfl] at hc
          cases ho : isPre noMufL (c :: rest) with
          | true => exact absurd ho hm
          | false => rw [ho, Bool.false_or] at hc; exact hc
        have h2 := ih rest (by simp only [List.length_cons] at hl; omega) hr
        show (isPre awenaL (c :: replaceNoMuf rest) ||
          containsSub (replaceNoMuf rest) awenaL) = true
        rw [h2, Bool.or_true]

theorem contains_awena_replace (l : List Char) (hc : containsSub l noMufL = true) :
    containsSub (replaceNoMuf l) awenaL = true :=
  contains_awena_replace_len l.length l (Nat.le_refl _) hc

/-! The claims. -/

/-- Claim C1, counterexample: the claim asserts every heading occurs exactly
once in the output; for the input consisting of an eluaha section whose
content mentions the sinonim heading mid-line, the output contains the
sinonim heading twice (once inside the eluaha content, once as the heading
of the defaulted sinonim section), not exactly once. -/
theorem nia_C1_counterexample :
    countOcc (treat_page (s2l "\x7b\x7beluaha\x7d\x7d\na \x7b\x7bsinonim\x7d\x7d b"))
      sinonimH ≠ 1 := by decide

/-- Claim C1, amended: for every input string the assembled output is
non-empty and contains each of the fourteen fixed-order section headings
at least once, in the fixed order (an extracted section's content can
itself mention a heading, so a heading may occur more than once). -/
theorem nia_C1_amended (text : List Char) :
    treat_page text ≠ [] ∧ containsInOrder (treat_page text) headingsList := by
  have h := headings_in_order text (pyRStrip (find_kategori text))
  rw [← treat_page_split text] at h
  exact ⟨cio_head_ne_nil _ famoligoH _ h (by decide), h⟩

/-- Claim C2: for text whose lines are some non-list lines, then the line
made of a numbered-list marker and foo, then the sub-example line made of
the sub-list marker and bar, then more non-list lines, and that contains
neither the definisi nor the duma-duma marker, the extractor renumbers
the definition from one and ties the example to it: it returns the
definisi heading with the colon-indented first definition foo and the
duma-duma heading with the colon-indented first example bar. -/
theorem nia_C2 (text foo bar : List Char) (pls post : List (List Char))
    (hnd : containsSub text definisiH = false)
    (_hnu : containsSub text dumaH = false)
    (hsplit : splitNl text = pls ++ (s2l "# " ++ foo) :: (s2l "#* " ++ bar) :: post)
    (hpls : pls.all (fun l => !(isPre (s2l "#") l)) = true)
    (hpost : post.all (fun l => !(isPre (s2l "#") l)) = true) :
    find_definisi_duma_section text =
      definisiH ++ s2l "\n" ++ (s2l ":1. " ++ foo) ++ s2l "\n\n" ++ dumaH ++ s2l "\n" ++
      (s2l ":1. " ++ bar) := by
  have hafD : afterFirst (definisiH ++ s2l "\n") text = none := by
    apply (afterFirst_none_iff _ _).mpr
    cases hx : containsSub text (definisiH ++ s2l "\n") with
    | false => rfl
    | true => exact absurd (contains_mono text _ definisiH (by decide) hx) (by simp [hnd])
  have hdefs : List.intercalate (s2l "\n") (dumaLoop 0 (splitNl text)).1 =
      s2l ":1. " ++ foo := by
    rw [hsplit, dumaLoop_skip 0 pls _ hpls, dumaLoop_sharp_line, dumaLoop_star_line,
      dumaLoop_no_hash (0 + 1) post hpost]
    show List.intercalate (s2l "\n") [s2l ":" ++ natChars (0 + 1) ++ s2l ". " ++ foo] =
      s2l ":1. " ++ foo
    rw [intercalate_single]
    rfl
  have hexs : List.intercalate (s2l "\n") (dumaLoop 0 (splitNl text)).2 =
      s2l ":1. " ++ bar := by
    rw [hsplit, dumaLoop_skip 0 pls _ hpls, dumaLoop_sharp_line, dumaLoop_star_line,
      dumaLoop_no_hash (0 + 1) post hpost]
    show List.intercalate (s2l "\n") [s2l ":" ++ natChars (0 + 1) ++ s2l ". " ++ bar] =
      s2l ":1. " ++ bar
    rw [intercalate_single]
    rfl
  unfold find_definisi_duma_section
  rw [hafD]
  show definisiH ++ s2l "\n" ++
    List.intercalate (s2l "\n") (dumaLoop 0 (splitNl text)).1 ++ s2l "\n\n" ++ dumaH ++
    s2l "\n" ++ List.intercalate (s2l "\n") (dumaLoop 0 (splitNl text)).2 = _
  rw [hdefs, hexs]

/-- Claim C2, witness at a concrete page with an intro line, one definition
line and one example line. -/
theorem nia_C2_witness :
    find_definisi_duma_section (s2l "intro\n# fo\n#* ba") =
      definisiH ++ s2l "\n" ++ (s2l ":1. " ++ s2l "fo") ++ s2l "\n\n" ++ dumaH ++
      s2l "\n" ++ (s2l ":1. " ++ s2l "ba") :=
  nia_C2 (s2l "intro\n# fo\n#* ba") (s2l "fo") (s2l "ba") [s2l "intro"] []
    (by decide) (by decide) (by decide) (by decide) (by decide)

/-- Claim C3: for input text with no recognised markers at all (no double
opening brace, no bracketed link, no gallery block, no numbered-list line
and no category line), the assembled output equals the fixed sequence of
headings each paired with its literal default content, in the fixed
order, followed by the appended categorisation-needed category line. -/
theorem nia_C3 (text : List Char)
    (h1 : containsSub text (s2l "\x7b\x7b") = false)
    (h2 : containsSub text (s2l "[[") = false)
    (h3 : containsSub text (s2l "<gallery>\n") = false)
    (h4 : (splitNl text).all (fun l => !(isPre (s2l "#") l)) = true)
    (h5 : (splitlines text).all (fun l => !(isPre (s2l "[[Kategori") l)) = true) :
    treat_page text = defaultOutL :=
  treat_markerless text h1 h2 h3 h4 h5

/-- Claim C3, witness at a concrete marker-free page. -/
theorem nia_C3_witness : treat_page (s2l "sura") = defaultOutL :=
  nia_C3 (s2l "sura") (by decide) (by decide) (by decide) (by decide) (by decide)

/-- Claim C4, counterexample: the claim asserts the pronunciation extractor
returns the not-found sentinel pair when no famoligö, part-of-speech or
IPA marker is present; on a plain word containing no marker at all it
instead returns the famoligö heading with a default IPA stub. -/
theorem nia_C4_counterexample :
    containsSub (s2l "tan") (s2l "\x7b\x7b") = false ∧
    find_famoligo_section (s2l "tan") ≠ none ∧
    find_famoligo_section (s2l "tan") =
      some (famoligoH, s2l ":\x7b\x7bIPA|ipa=|audio=\x7d\x7d") := by decide

/-- Claim C4, amended: extractors anchored on a section marker return the
not-found sentinel when the marker is absent (shown for the eluaha
extractor), but the pronunciation extractor never does: when no IPA
marker is present it returns the famoligö heading with the default IPA
stub content. -/
theorem nia_C4_amended (text : List Char) :
    (containsSub text eluahaH = false → find_eluaha_section text = none) ∧
    (containsSub text (s2l "\x7b\x7bIPA") = false →
      find_famoligo_section text =
        some (famoligoH, s2l ":\x7b\x7bIPA|ipa=|audio=\x7d\x7d")) := by
  constructor
  · intro h
    have hx : afterFirst (eluahaH ++ s2l "\n") text = none := by
      apply (afterFirst_none_iff _ _).mpr
      cases hy : containsSub text (eluahaH ++ s2l "\n") with
      | false => rfl
      | true => exact absurd (contains_mono text _ eluahaH (by decide) hy) (by simp [h])
    unfold find_eluaha_section sectionFind
    rw [hx]
    rfl
  · intro h
    unfold find_famoligo_section
    rw [searchIPA_none text h]

/-- Claim C4, witness at a concrete marker-free page. -/
theorem nia_C4_witness :
    find_eluaha_section (s2l "ba") = none ∧
    find_famoligo_section (s2l "ba") =
      some (famoligoH, s2l ":\x7b\x7bIPA|ipa=|audio=\x7d\x7d") :=
  ⟨(nia_C4_amended (s2l "ba")).1 (by decide), (nia_C4_amended (s2l "ba")).2 (by decide)⟩

/-- Claim C5: when the joined category lines contain the no-categorisation
marker, the category finder replaces it (the result is the replacement of
the joined block, contains the categorisation-needed marker and no longer
contains the no-categorisation marker) and appends nothing; otherwise it
appends the categorisation-needed category line after the existing
category lines. -/
theorem nia_C5 (text : List Char) :
    (containsSub (katJoined text) noMufL = true →
      find_kategori text = replaceNoMuf (katJoined text) ∧
      containsSub (find_kategori text) noMufL = false ∧
      containsSub (find_kategori text) awenaL = true) ∧
    (containsSub (katJoined text) noMufL = false →
      find_kategori text = katJoined text ++ nlKatL) := by
  constructor
  · intro h
    refine ⟨?_, find_kategori_no_noMuf text, ?_⟩
    · unfold find_kategori
      simp only [h, if_true]
    · unfold find_kategori
      simp only [h, if_true]
      exact contains_awena_replace _ h
  · intro h
    unfold find_kategori
    simp only [h]
    rw [if_neg Bool.false_ne_true]
    rfl

/-- Claim C5, witness at a concrete page with a no-categorisation line and
at a concrete page with an ordinary category line. -/
theorem nia_C5_witness :
    (find_kategori (s2l "[[Kategori:No mufareso]]") =
      replaceNoMuf (katJoined (s2l "[[Kategori:No mufareso]]")) ∧
     containsSub (find_kategori (s2l "[[Kategori:No mufareso]]")) noMufL = false ∧
     containsSub (find_kategori (s2l "[[Kategori:No mufareso]]")) awenaL = true) ∧
    find_kategori (s2l "[[Kategori:Ono]]") = katJoined (s2l "[[Kategori:Ono]]") ++ nlKatL :=
  ⟨(nia_C5 (s2l "[[Kategori:No mufareso]]")).1 (by decide),
   (nia_C5 (s2l "[[Kategori:Ono]]")).2 (by decide)⟩

/-- Claim C6, counterexample: the claim asserts that feeding the output back
through the transformation reproduces the same content for each section.
Two sections fail.  First, the category section is never reproduced: a
second pass appends another categorisation-needed line, so the output's
category lines differ.  Second, even a template section can fail: for a
page consisting of a gallery block, the first pass emits the image section
with plain bracketed gallery content, which the second pass does not
recognise (no gallery, no image-link marker), so the image section of the
re-fed output is the default placeholder instead of the emitted content. -/
theorem nia_C6_counterexample :
    katLines (treat_page (treat_page (s2l "ono"))) ≠ katLines (treat_page (s2l "ono")) ∧
    secChunk (find_gambara_section
        (treat_page (s2l "<gallery>\npic.jpg|cap</gallery>\n"))) gamPl ≠
      secChunk (find_gambara_section (s2l "<gallery>\npic.jpg|cap</gallery>\n")) gamPl := by
  decide

/-- Claim C6, amended: for marker-free input, feeding the assembler's own
output back through the transformation reproduces the extracted content
of every template section (each marker being present in the output, and
default placeholders remaining in place), but not of the category block:
the second pass appends one more categorisation-needed category line.
The restriction to marker-free input is forced by the counterexample: on
inputs with real section content even template sections need not be
reproduced (gallery-derived image content is emitted in a form the second
pass does not recognise). -/
theorem nia_C6_amended (text : List Char)
    (h1 : containsSub text (s2l "\x7b\x7b") = false)
    (h2 : containsSub text (s2l "[[") = false)
    (h3 : containsSub text (s2l "<gallery>\n") = false)
    (h4 : (splitNl text).all (fun l => !(isPre (s2l "#") l)) = true)
    (h5 : (splitlines text).all (fun l => !(isPre (s2l "[[Kategori") l)) = true) :
    find_language_code (treat_page (treat_page text)) =
      find_language_code (treat_page text) ∧
    find_famoligo_section (treat_page (treat_page text)) =
      find_famoligo_section (treat_page text) ∧
    find_definisi_duma_section (treat_page (treat_page text)) =
      find_definisi_duma_section (treat_page text) ∧
    find_gambara_section (treat_page (treat_page text)) =
      find_gambara_section (treat_page text) ∧
    find_eluaha_section (treat_page (treat_page text)) =
      find_eluaha_section (treat_page text) ∧
    find_sinonim_section (treat_page (treat_page text)) =
      find_sinonim_section (treat_page text) ∧
    find_antonim_section (treat_page (treat_page text)) =
      find_antonim_section (treat_page text) ∧
    find_etimologi_section (treat_page (treat_page text)) =
      find_etimologi_section (treat_page text) ∧
    find_nitongoni_section (treat_page (treat_page text)) =
      find_nitongoni_section (treat_page text) ∧
    find_fakhili_section (treat_page (treat_page text)) =
      find_fakhili_section (treat_page text) ∧
    find_daha_section (treat_page (treat_page text)) =
      find_daha_section (treat_page text) ∧
    find_fakhai_section (treat_page (treat_page text)) =
      find_fakhai_section (treat_page text) ∧
    find_baero_section (treat_page (treat_page text)) =
      find_baero_section (treat_page text) ∧
    find_umbu_section (treat_page (treat_page text)) =
      find_umbu_section (treat_page text) ∧
    find_kategori (treat_page (treat_page text)) =
      find_kategori (treat_page text) ++ nlKatL := by
  rw [treat_markerless text h1 h2 h3 h4 h5]
  decide

/-- Claim C6, witness at a concrete marker-free page: the re-fed category
block gains one appended categorisation-needed line. -/
theorem nia_C6_witness :
    find_kategori (treat_page (treat_page (s2l "mbanua"))) =
      find_kategori (treat_page (s2l "mbanua")) ++ nlKatL :=
  (nia_C6_amended (s2l "mbanua") (by decide) (by decide) (by decide) (by decide)
    (by decide)).2.2.2.2.2.2.2.2.2.2.2.2.2.2

/-- Claim C7, counterexample: the claim asserts the image extractor returns
the gambara heading for any text containing a line starting with the
bracketed image-link marker; when that line is the final line and is not
terminated by a newline, the pattern requires a following newline and the
extractor returns the not-found sentinels instead. -/
theorem nia_C7_counterexample :
    containsSub (s2l "[[Berkas:x]]") (s2l "[[Berkas") = true ∧
    find_gambara_section (s2l "[[Berkas:x]]") = none := by decide

/-- Claim C7, amended: for text with no gallery-block match, if the first
occurrence of the Berkas image-link marker starts a newline-terminated
line, the image extractor returns the gambara heading with that line,
trimmed, as its content; and if instead the Berkas image-link pattern
matches nowhere in the text and the first occurrence of the File
image-link marker starts a newline-terminated line, it likewise returns
the gambara heading with that File line, trimmed. -/
theorem nia_C7_amended (pre line post : List Char)
    (hgal : (afterFirst (s2l "<gallery>\n") (pre ++ line ++ s2l "\n" ++ post)).bind
      (lastSplit (s2l "</gallery>")) = none)
    (hnl : noNl line = true) :
    (isPre (s2l "[[Berkas") line = true →
      containsSub pre (s2l "[[Berkas") = false →
      find_gambara_section (pre ++ line ++ s2l "\n" ++ post) =
        some (gambaraH, pyStrip line)) ∧
    (isPre (s2l "[[File") line = true →
      scanNlGroup (s2l "[[Berkas") (pre ++ line ++ s2l "\n" ++ post) = none →
      containsSub pre (s2l "[[File") = false →
      find_gambara_section (pre ++ line ++ s2l "\n" ++ post) =
        some (gambaraH, pyStrip line)) := by
  constructor
  · intro hline hpre
    unfold find_gambara_section
    rw [hgal]
    show (match scanNlGroup (s2l "[[Berkas") (pre ++ line ++ s2l "\n" ++ post) with
      | some g => some (gambaraH, pyStrip g)
      | none =>
        match scanNlGroup (s2l "[[File") (pre ++ line ++ s2l "\n" ++ post) with
        | some g => some (gambaraH, pyStrip g)
        | none => none) = some (gambaraH, pyStrip line)
    rw [scanNlGroup_line (s2l "[[Berkas") (by decide) (by decide)
      pre line post hline hnl hpre]
    show some (gambaraH, pyStrip (line ++ s2l "\n")) = some (gambaraH, pyStrip line)
    rw [pyStrip_append_nlchar]
  · intro hline hnob hpre
    unfold find_gambara_section
    rw [hgal]
    show (match scanNlGroup (s2l "[[Berkas") (pre ++ line ++ s2l "\n" ++ post) with
      | some g => some (gambaraH, pyStrip g)
      | none =>
        match scanNlGroup (s2l "[[File") (pre ++ line ++ s2l "\n" ++ post) with
        | some g => some (gambaraH, pyStrip g)
        | none => none) = some (gambaraH, pyStrip line)
    rw [hnob]
    show (match scanNlGroup (s2l "[[File") (pre ++ line ++ s2l "\n" ++ post) with
      | some g => some (gambaraH, pyStrip g)
      | none => none) = some (gambaraH, pyStrip line)
    rw [scanNlGroup_line (s2l "[[File") (by decide) (by decide)
      pre line post hline hnl hpre]
    show some (gambaraH, pyStrip (line ++ s2l "\n")) = some (gambaraH, pyStrip line)
    rw [pyStrip_append_nlchar]

/-- Claim C7, witness at a concrete page with an intro line and a
newline-terminated Berkas image-link line, and at a concrete page with an
intro line and a newline-terminated File image-link line. -/
theorem nia_C7_witness :
    find_gambara_section (s2l "intro\n" ++ s2l "[[Berkas:p.jpg]]" ++ s2l "\n" ++ s2l "end") =
      some (gambaraH, pyStrip (s2l "[[Berkas:p.jpg]]")) ∧
    find_gambara_section (s2l "intro\n" ++ s2l "[[File:q.png]]" ++ s2l "\n" ++ s2l "end") =
      some (gambaraH, pyStrip (s2l "[[File:q.png]]")) :=
  ⟨(nia_C7_amended (s2l "intro\n") (s2l "[[Berkas:p.jpg]]") (s2l "end")
      (by decide) (by decide)).1 (by decide) (by decide),
   (nia_C7_amended (s2l "intro\n") (s2l "[[File:q.png]]") (s2l "end")
      (by decide) (by decide)).2 (by decide) (by decide) (by decide)⟩

/-- Claim C8: for every input string the transformation is a total function
producing a single output string already trimmed of leading and trailing
whitespace (stripping the output again changes nothing). -/
theorem nia_C8 (text : List Char) : pyStrip (treat_page text) = treat_page text :=
  pyStrip_idem (assembled text)

/-- Claim C9: the definition-and-examples extractor returns a non-empty
string for every input, so the assembler's placeholder branch for that
section is never taken (the chunk is always the extractor result followed
by a blank line); in particular on text with no definisi marker and no
numbered-list line, it returns the two headings with empty content. -/
theorem nia_C9 (text : List Char) :
    find_definisi_duma_section text ≠ [] ∧
    defChunk text = find_definisi_duma_section text ++ s2l "\n\n" ∧
    (containsSub text definisiH = false →
      (splitNl text).all (fun l => !(isPre (s2l "#") l)) = true →
      find_definisi_duma_section text =
        s2l "\x7b\x7bdefinisi\x7d\x7d\n\n\n\x7b\x7bduma-duma\x7d\x7d\n") := by
  refine ⟨find_dd_ne_nil text, ?_, ?_⟩
  · unfold defChunk
    cases hk : (find_definisi_duma_section text).isEmpty with
    | true => exact absurd (List.isEmpty_iff.mp hk) (find_dd_ne_nil text)
    | false =>
      simp only [hk]
      rw [if_neg Bool.false_ne_true]
  · intro hnd h4
    have hafD : afterFirst (definisiH ++ s2l "\n") text = none := by
      apply (afterFirst_none_iff _ _).mpr
      cases hx : containsSub text (definisiH ++ s2l "\n") with
      | false => rfl
      | true => exact absurd (contains_mono text _ definisiH (by decide) hx) (by simp [hnd])
    unfold find_definisi_duma_section
    rw [hafD]
    show definisiH ++ s2l "\n" ++
      List.intercalate (s2l "\n") (dumaLoop 0 (splitNl text)).1 ++ s2l "\n\n" ++ dumaH ++
      s2l "\n" ++ List.intercalate (s2l "\n") (dumaLoop 0 (splitNl text)).2 = _
    rw [dumaLoop_no_hash 0 _ h4]
    decide

/-- Claim C9, witness at a concrete marker-free page. -/
theorem nia_C9_witness :
    find_definisi_duma_section (s2l "fona") =
      s2l "\x7b\x7bdefinisi\x7d\x7d\n\n\n\x7b\x7bduma-duma\x7d\x7d\n" :=
  (nia_C9 (s2l "fona")).2.2 (by decide) (by decide)

/-- Claim C10: the category finder always returns a non-empty string whose
every no-categorisation marker has been replaced (none is left in the
result for any input); when the input has no category lines the result is
a newline followed by the categorisation-needed category line; and the
assembled output ends with the right-stripped category block. -/
theorem nia_C10 (text : List Char) :
    find_kategori text ≠ [] ∧
    containsSub (find_kategori text) noMufL = false ∧
    (katLines text = [] → find_kategori text = nlKatL) ∧
    ∃ s, treat_page text = s ++ pyRStrip (find_kategori text) := by
  refine ⟨find_kategori_ne_nil text, find_kategori_no_noMuf text, ?_,
    bodyChunks text, treat_page_split text⟩
  intro h
  unfold find_kategori katJoined
  rw [h]
  decide

/-- Claim C10, witness at a concrete page with no category lines. -/
theorem nia_C10_witness : find_kategori (s2l "sibaya") = nlKatL :=
  (nia_C10 (s2l "sibaya")).2.2.1 (by decide)

end NiaBot
